import Mathlib

/-!
Shallow embedding of the kevacoin overlay-cache core (`src/keva/common.h`):
the entry-record model (`CKevaData`), the rollback history stack
(`CNameHistory`), the cache ordering relation (`CKevaCache::NameComparator`)
and the overlay cache with its point operations, layer composition and merge
iteration.  Byte strings (`valtype`, i.e. `std::vector<unsigned char>`) are
modelled as lists of naturals; machine integers as naturals (only comparisons
and lengths are used, so no overflow arises).  Fatal assertion failures
(`assert`) are modelled by `Option`: `none` is the aborted computation.
-/

namespace Keva

/-- `valtype`: an opaque byte string (`std::vector<unsigned char>`). -/
abbrev valtype := List Nat

/-- An identifier: a (namespace, key) pair, `std::tuple<valtype, valtype>`. -/
abbrev Ident := valtype × valtype

/-- `COutPoint`: transaction id (modelled as a natural) plus output index. -/
structure COutPoint where
  hash : Nat
  n : Nat
deriving DecidableEq

/-- `CKevaData`: the name's value, update height, last update outpoint and
owner script (`src/keva/common.h` lines 57-164). -/
structure CKevaData where
  value : valtype
  nHeight : Nat
  prevout : COutPoint
  addr : valtype
deriving DecidableEq

/-- `operator== (const CKevaData&, const CKevaData&)` (common.h lines 91-96):
field-wise comparison of all four fields. -/
def CKevaData.eqOp (a b : CKevaData) : Bool :=
  decide (a.value = b.value) && decide (a.nHeight = b.nHeight) &&
    decide (a.prevout = b.prevout) && decide (a.addr = b.addr)

/-- `std::vector<unsigned char>::operator<`: lexicographic byte comparison. -/
def vLt : List Nat → List Nat → Bool
  | _, [] => false
  | [], _ :: _ => true
  | a :: as, b :: bs =>
    if a < b then true else if b < a then false else vLt as bs

/-- `std::tuple<valtype, valtype>::operator<`: lexicographic comparison of the
two components, each compared by `vLt`. -/
def tupLt (a b : Ident) : Bool :=
  if vLt a.1 b.1 then true
  else if vLt b.1 a.1 then false
  else vLt a.2 b.2

/-- `CKevaCache::NameComparator::operator()` (common.h lines 290-299):
compare total byte length of namespace plus key first; on a tie fall back to
`std::tuple` lexicographic comparison. -/
def nameLt (a b : Ident) : Bool :=
  if a.1.length + a.2.length ≠ b.1.length + b.2.length then
    decide (a.1.length + a.2.length < b.1.length + b.2.length)
  else tupLt a b

/-- The ordering stated by the spec, written from its words: primary key is
the total byte length of namespace plus key, secondary key is lexicographic
comparison of the (namespace, key) pair. -/
def specNameLt (a b : Ident) : Prop :=
  a.1.length + a.2.length < b.1.length + b.2.length ∨
    (a.1.length + a.2.length = b.1.length + b.2.length ∧
      (List.Lex (· < ·) a.1 b.1 ∨ (a.1 = b.1 ∧ List.Lex (· < ·) a.2 b.2)))

namespace CNameHistory

/-- `CNameHistory::push` (common.h lines 217-222): assert that the stack is
empty or the top entry's height is at most the new entry's height, then
append.  The stack is the raw `std::vector`, top at the back. -/
def push (d : List CKevaData) (entry : CKevaData) : Option (List CKevaData) :=
  match d.getLast? with
  | none => some (d ++ [entry])
  | some top =>
      if top.nHeight ≤ entry.nHeight then some (d ++ [entry]) else none

/-- `CNameHistory::pop` (common.h lines 230-235): assert that the stack is
non-empty and its top equals (via `operator==`) the given entry, then remove
the top. -/
def pop (d : List CKevaData) (entry : CKevaData) : Option (List CKevaData) :=
  match d.getLast? with
  | none => none
  | some top => if top.eqOp entry then some d.dropLast else none

end CNameHistory

/-- The overlay cache state `CKevaCache` (common.h lines 383-388): pending
inserts/overwrites and pending deletions.  `entries` models the
`std::map` ordered by `NameComparator` as an association list kept in
strictly ascending key order; `deleted` models the deleted-identifier set as
a list.  (The header declares `deleted` as `std::set<valtype>`, but the spec
and the cache operations treat deletions as keyed by full identifiers; the
missing implementation file is modelled from the spec on this point.) -/
structure CKevaCache where
  entries : List (Ident × CKevaData)
  deleted : List Ident

/-- `CKevaCache::isDeleted` (common.h lines 441-449): the live code path is
`return false;` — the branch consulting `deleted` is compiled out. -/
def CKevaCache.isDeleted (_c : CKevaCache) (_nameSpace _key : valtype) : Bool :=
  false

/-- Lookup in the association list modelling the `entries` map. -/
def lookupEntry (id : Ident) : List (Ident × CKevaData) → Option CKevaData
  | [] => none
  | p :: rest => if p.1 = id then some p.2 else lookupEntry id rest

/-- Ordered insert-or-replace into the association list modelling the
`entries` map (`std::map::operator[]` keyed by `NameComparator`). -/
def insertEntry (id : Ident) (d : CKevaData) :
    List (Ident × CKevaData) → List (Ident × CKevaData)
  | [] => [(id, d)]
  | p :: rest =>
    if nameLt id p.1 then (id, d) :: p :: rest
    else if nameLt p.1 id then p :: insertEntry id d rest
    else (id, d) :: rest

/-- Erase a key from the association list (`std::map::erase`). -/
def eraseEntry (id : Ident) (l : List (Ident × CKevaData)) :
    List (Ident × CKevaData) :=
  l.filter (fun p => !decide (p.1 = id))

/-- Ordered insert into the list modelling the `deleted` set
(`std::set::insert` keyed by identifier). -/
def insertDel (id : Ident) : List Ident → List Ident
  | [] => [id]
  | j :: rest =>
    if nameLt id j then id :: j :: rest
    else if nameLt j id then j :: insertDel id rest
    else j :: rest

/-- Erase an identifier from the list modelling the `deleted` set. -/
def eraseDel (id : Ident) (l : List Ident) : List Ident :=
  l.filter (fun j => !decide (j = id))

/-- Membership in the list modelling the `deleted` set. -/
def memDel (id : Ident) (l : List Ident) : Bool :=
  l.contains id

/-- Modelled from the spec: the body of `CKevaCache::get` lives in the
missing `common.cpp`; per §4.4 it looks the identifier up only in `entries`
and never consults `deleted`. -/
def CKevaCache.get (c : CKevaCache) (nameSpace key : valtype) :
    Option CKevaData :=
  lookupEntry (nameSpace, key) c.entries

/-- Modelled from the spec: the body of `CKevaCache::set` lives in the
missing `common.cpp`; per §4.4 it stores the record under the identifier in
`entries` and removes the identifier from `deleted` if present. -/
def CKevaCache.set (c : CKevaCache) (nameSpace key : valtype)
    (d : CKevaData) : CKevaCache :=
  { entries := insertEntry (nameSpace, key) d c.entries
    deleted := eraseDel (nameSpace, key) c.deleted }

/-- Modelled from the spec: the body of `CKevaCache::remove` lives in the
missing `common.cpp`; per §4.4 it adds the identifier to `deleted` and
erases it from `entries` if present. -/
def CKevaCache.remove (c : CKevaCache) (nameSpace key : valtype) :
    CKevaCache :=
  { entries := eraseEntry (nameSpace, key) c.entries
    deleted := insertDel (nameSpace, key) c.deleted }

/-- The empty overlay cache: the state at the start of a transactional unit. -/
def emptyCache : CKevaCache :=
  { entries := [], deleted := [] }

/-- One point mutation on the overlay cache: a `set` or a `remove` call. -/
inductive CacheOp where
  | opSet (nameSpace key : valtype) (d : CKevaData)
  | opRemove (nameSpace key : valtype)

/-- Run one point mutation. -/
def runOp (c : CKevaCache) : CacheOp → CKevaCache
  | .opSet ns k d => c.set ns k d
  | .opRemove ns k => c.remove ns k

/-- Run a sequence of point mutations starting from the empty cache. -/
def runOps (ops : List CacheOp) : CKevaCache :=
  ops.foldl runOp emptyCache

/-- Point observation of a cache at one identifier: the pending record (if
any) and whether the identifier is marked deleted. -/
def obs (c : CKevaCache) (id : Ident) : Option CKevaData × Bool :=
  (lookupEntry id c.entries, memDel id c.deleted)

/-- Whether an overlay layer touches an identifier: it is pending as an
insert/overwrite or as a deletion. -/
def touches (c : CKevaCache) (id : Ident) : Bool :=
  (lookupEntry id c.entries).isSome || memDel id c.deleted

/-- The state an overlay layer dictates for an identifier it touches: its
pending record if it stages an insert/overwrite, otherwise a deletion.
(`apply` gives entries precedence over deletions, per spec §4.4.) -/
def layerObs (c : CKevaCache) (id : Ident) : Option CKevaData × Bool :=
  match lookupEntry id c.entries with
  | some r => (some r, false)
  | none => (none, true)

/-- Key uniqueness of the association list modelling the `entries` map
(guaranteed by `std::map`). -/
def keysNodup (l : List (Ident × CKevaData)) : Prop :=
  l.Pairwise (fun p q => p.1 ≠ q.1)

/-- Modelled from the spec: the body of `CKevaCache::apply` lives in the
missing `common.cpp`; per §4.4, step (1) processes every identifier of
`other.deleted` like a `remove` on `this` (erase from `entries`, add to
`deleted`), then step (2) processes every entry of `other.entries` like a
`set` on `this` (store in `entries`, clear from `deleted`).  `other` is a
value here, so the donor layer is untouched by construction. -/
def CKevaCache.apply (c other : CKevaCache) : CKevaCache :=
  other.entries.foldl (fun a p => a.set p.1.1 p.1.2 p.2)
    (other.deleted.foldl (fun a i => a.remove i.1 i.2) c)

/-- Modelled from the spec: the merge loop of `CCacheNameIterator::next`
lives in the missing `common.cpp`; per §4.4.1 it is driven by the remaining
base stream and the remaining cache entries (both ascending), with `fuel`
bounding the number of loop iterations (any fuel at least the total length
is enough).  Rule 1: base exhausted — drain the cache entries.  Rule 2:
cache exhausted — drain the base, skipping identifiers in `deleted`.
Rule 3: compare the two current identifiers: the smaller side is yielded
(base entries in `deleted` are skipped); on a tie the cache record overrides
the base record and both advance. -/
def mergeNamesF (dels : List Ident) :
    Nat → List (Ident × CKevaData) → List (Ident × CKevaData) →
    List (Ident × CKevaData)
  | 0, _, _ => []
  | _ + 1, [], es => es
  | f + 1, b :: bs, [] =>
    if memDel b.1 dels then mergeNamesF dels f bs []
    else b :: mergeNamesF dels f bs []
  | f + 1, b :: bs, e :: es =>
    if nameLt e.1 b.1 then e :: mergeNamesF dels f (b :: bs) es
    else if nameLt b.1 e.1 then
      if memDel b.1 dels then mergeNamesF dels f bs (e :: es)
      else b :: mergeNamesF dels f bs (e :: es)
    else e :: mergeNamesF dels f bs es

/-- Modelled from the spec: draining the iterator returned by
`CKevaCache::iterateNames` over a base stream — the full merged output. -/
def CKevaCache.iterateNames (c : CKevaCache)
    (base : List (Ident × CKevaData)) : List (Ident × CKevaData) :=
  mergeNamesF c.deleted (base.length + c.entries.length) base c.entries

/-- The strict ordering on yielded pairs induced by `NameComparator` on
their identifiers. -/
abbrev ltKey (p q : Ident × CKevaData) : Prop :=
  nameLt p.1 q.1 = true

/-- Modelled from the spec: the body of `CKevaData::isExpired` lives in the
missing `common.cpp`; per §4.1/§8 it is true iff the query height minus the
record's stored height exceeds the caller-supplied expiration depth. -/
def CKevaData.isExpired (d : CKevaData) (h depth : Nat) : Bool :=
  decide (h - d.nHeight > depth)

/-- A sample record at height 10, used by concrete witnesses. -/
def recA : CKevaData :=
  { value := [1], nHeight := 10, prevout := { hash := 0, n := 0 }, addr := [] }

/-- A second sample record at height 10, used by concrete witnesses. -/
def recB : CKevaData :=
  { value := [2], nHeight := 10, prevout := { hash := 0, n := 1 }, addr := [] }

/-- A sample record at height 9, used by concrete witnesses. -/
def recC : CKevaData :=
  { value := [3], nHeight := 9, prevout := { hash := 0, n := 2 }, addr := [] }

/-- Concrete identifier `a` of the spec's merge scenario. -/
def idA : Ident := ([0], [1])

/-- Concrete identifier `b` of the spec's merge scenario. -/
def idB : Ident := ([0], [2])

/-- Concrete identifier `x` of the spec's merge scenario (strictly between
`b` and `c` under the ordering). -/
def idX : Ident := ([0], [3])

/-- Concrete identifier `c` of the spec's merge scenario. -/
def idC : Ident := ([0], [4])

/-- A concrete base layer used by the composition witness. -/
def exA : CKevaCache := { entries := [(idA, recA)], deleted := [] }

/-- A concrete first overlay layer (deletes `a`, sets `b`). -/
def exB : CKevaCache := { entries := [(idB, recB)], deleted := [idA] }

/-- A concrete second overlay layer (re-sets `a`, deletes `b`). -/
def exC : CKevaCache := { entries := [(idA, recC)], deleted := [idB] }

/-- The overriding cache record `rb2` of the spec's merge scenario. -/
def recB2 : CKevaData :=
  { value := [22], nHeight := 11, prevout := { hash := 1, n := 0 }, addr := [] }

/-- The cache-only record `rx` of the spec's merge scenario. -/
def recX : CKevaData :=
  { value := [33], nHeight := 12, prevout := { hash := 1, n := 1 }, addr := [] }

/-- The base record `rc` of the spec's merge scenario. -/
def recCC : CKevaData :=
  { value := [44], nHeight := 13, prevout := { hash := 1, n := 2 }, addr := [] }

/-- The base stream of the spec's merge scenario: `a, b, c` ascending. -/
def exBase : List (Ident × CKevaData) :=
  [(idA, recA), (idB, recB), (idC, recCC)]

/-- The overlay cache of the spec's merge scenario:
`entries = {b: rb2, x: rx}`, `deleted = {a}`. -/
def exCache : CKevaCache :=
  { entries := [(idB, recB2), (idX, recX)], deleted := [idA] }

theorem vLt_iff_lex : ∀ a b : List Nat, vLt a b = true ↔ List.Lex (· < ·) a b := by
  intro a
  induction a with
  | nil =>
    intro b
    cases b with
    | nil => exact iff_of_false (by simp [vLt]) (List.Lex.not_nil_right _ _)
    | cons y ys => exact iff_of_true (by simp [vLt]) List.Lex.nil
  | cons x xs ih =>
    intro b
    cases b with
    | nil => exact iff_of_false (by simp [vLt]) (List.Lex.not_nil_right _ _)
    | cons y ys =>
      simp only [vLt]
      by_cases hxy : x < y
      · exact iff_of_true (by simp [hxy]) (List.Lex.rel hxy)
      · by_cases hyx : y < x
        · refine iff_of_false (by simp [hxy, hyx]) ?_
          intro hlex
          cases hlex with
          | cons h => exact absurd hyx (lt_irrefl x)
          | rel h => exact absurd h hxy
        · have hxyeq : x = y := by omega
          subst hxyeq
          simp only [hxy, if_false, lt_irrefl, ih ys]
          exact (List.Lex.cons_iff).symm

theorem vLt_irrefl (a : List Nat) : vLt a a = false := by
  cases hv : vLt a a with
  | false => rfl
  | true =>
    have hir : ¬ List.Lex (· < ·) a a := irrefl_of (List.Lex (· < ·)) a
    exact absurd ((vLt_iff_lex a a).mp hv) hir

theorem vLt_trans {a b c : List Nat} (h1 : vLt a b = true)
    (h2 : vLt b c = true) : vLt a c = true := by
  have ht : List.Lex (· < ·) a c :=
    trans_of (List.Lex (· < ·)) ((vLt_iff_lex a b).mp h1)
      ((vLt_iff_lex b c).mp h2)
  exact (vLt_iff_lex a c).mpr ht

theorem vLt_connex {a b : List Nat} (h : a ≠ b) :
    vLt a b = true ∨ vLt b a = true := by
  have ht : List.Lex (· < ·) a b ∨ a = b ∨ List.Lex (· < ·) b a :=
    trichotomous_of (List.Lex (· < ·)) a b
  rcases ht with hl | he | hr
  · exact Or.inl ((vLt_iff_lex a b).mpr hl)
  · exact absurd he h
  · exact Or.inr ((vLt_iff_lex b a).mpr hr)

theorem vEq_of_not_lt {a b : List Nat} (h1 : vLt a b = false)
    (h2 : vLt b a = false) : a = b := by
  by_contra hne
  rcases vLt_connex hne with h | h
  · rw [h1] at h; exact Bool.false_ne_true h
  · rw [h2] at h; exact Bool.false_ne_true h

theorem tupLt_irrefl (a : Ident) : tupLt a a = false := by
  simp [tupLt, vLt_irrefl]

theorem tupLt_trans {a b c : Ident} (h1 : tupLt a b = true)
    (h2 : tupLt b c = true) : tupLt a c = true := by
  unfold tupLt at h1 h2 ⊢
  by_cases h1f : vLt a.1 b.1 = true
  · by_cases h2f : vLt b.1 c.1 = true
    · simp [vLt_trans h1f h2f]
    · by_cases h2r : vLt c.1 b.1 = true
      · simp [h2f, h2r] at h2
      · have : b.1 = c.1 := vEq_of_not_lt (by simpa using h2f) (by simpa using h2r)
        rw [← this]
        simp [h1f]
  · by_cases h1r : vLt b.1 a.1 = true
    · simp [h1f, h1r] at h1
    · have hab : a.1 = b.1 := vEq_of_not_lt (by simpa using h1f) (by simpa using h1r)
      simp only [h1f, h1r, if_false] at h1
      by_cases h2f : vLt b.1 c.1 = true
      · rw [hab]
        simp [h2f]
      · by_cases h2r : vLt c.1 b.1 = true
        · simp [h2f, h2r] at h2
        · have hbc : b.1 = c.1 := vEq_of_not_lt (by simpa using h2f) (by simpa using h2r)
          simp only [h2f, h2r, if_false] at h2
          rw [hab, hbc]
          simp [vLt_irrefl, vLt_trans h1 h2]

theorem tupLt_connex {a b : Ident} (h : a ≠ b) :
    tupLt a b = true ∨ tupLt b a = true := by
  by_cases h1 : a.1 = b.1
  · have h2 : a.2 ≠ b.2 := by
      intro h2
      exact h (Prod.ext h1 h2)
    rcases vLt_connex h2 with hl | hr
    · exact Or.inl (by simp [tupLt, h1, vLt_irrefl, hl])
    · exact Or.inr (by simp [tupLt, h1.symm, vLt_irrefl, hr])
  · rcases vLt_connex h1 with hl | hr
    · exact Or.inl (by simp [tupLt, hl])
    · exact Or.inr (by simp [tupLt, hr])

theorem nameLt_iff (a b : Ident) :
    nameLt a b = true ↔
      (a.1.length + a.2.length < b.1.length + b.2.length ∨
        (a.1.length + a.2.length = b.1.length + b.2.length ∧ tupLt a b = true)) := by
  unfold nameLt
  by_cases h : a.1.length + a.2.length = b.1.length + b.2.length
  · simp [h]
  · simp [h]

theorem nameLt_irrefl (a : Ident) : nameLt a a = false := by
  cases hv : nameLt a a with
  | false => rfl
  | true =>
    rcases (nameLt_iff a a).mp hv with hl | ⟨_, ht⟩
    · omega
    · rw [tupLt_irrefl] at ht
      exact absurd ht Bool.false_ne_true

theorem nameLt_trans {a b c : Ident} (h1 : nameLt a b = true)
    (h2 : nameLt b c = true) : nameLt a c = true := by
  rw [nameLt_iff] at h1 h2 ⊢
  rcases h1 with hl1 | ⟨he1, ht1⟩ <;> rcases h2 with hl2 | ⟨he2, ht2⟩
  · left; omega
  · left; omega
  · left; omega
  · right
    exact ⟨by omega, tupLt_trans ht1 ht2⟩

theorem nameLt_connex {a b : Ident} (h : a ≠ b) :
    nameLt a b = true ∨ nameLt b a = true := by
  rw [nameLt_iff, nameLt_iff]
  by_cases hs : a.1.length + a.2.length = b.1.length + b.2.length
  · rcases tupLt_connex h with ht | ht
    · exact Or.inl (Or.inr ⟨hs, ht⟩)
    · exact Or.inr (Or.inr ⟨hs.symm, ht⟩)
  · rcases Nat.lt_or_ge (a.1.length + a.2.length) (b.1.length + b.2.length)
      with hl | hg
    · exact Or.inl (Or.inl hl)
    · exact Or.inr (Or.inl (by omega))

theorem nameLt_asymm {a b : Ident} (h : nameLt a b = true) :
    nameLt b a = false := by
  cases hr : nameLt b a with
  | false => rfl
  | true =>
    have := nameLt_trans h hr
    rw [nameLt_irrefl] at this
    exact absurd this Bool.false_ne_true

theorem eq_of_not_nameLt {a b : Ident} (h1 : nameLt a b = false)
    (h2 : nameLt b a = false) : a = b := by
  by_contra hne
  rcases nameLt_connex hne with h | h
  · rw [h1] at h; exact Bool.false_ne_true h
  · rw [h2] at h; exact Bool.false_ne_true h

theorem nameLt_ne {a b : Ident} (h : nameLt a b = true) : a ≠ b := by
  intro he
  subst he
  rw [nameLt_irrefl] at h
  exact Bool.false_ne_true h

theorem tupLt_iff_spec (a b : Ident) :
    tupLt a b = true ↔
      (List.Lex (· < ·) a.1 b.1 ∨ (a.1 = b.1 ∧ List.Lex (· < ·) a.2 b.2)) := by
  unfold tupLt
  by_cases h1 : vLt a.1 b.1 = true
  · rw [if_pos h1]
    exact iff_of_true rfl (Or.inl ((vLt_iff_lex _ _).mp h1))
  · rw [if_neg h1]
    by_cases h2 : vLt b.1 a.1 = true
    · rw [if_pos h2]
      refine iff_of_false Bool.false_ne_true ?_
      rintro (hl | ⟨he, _⟩)
      · exact h1 ((vLt_iff_lex _ _).mpr hl)
      · rw [he, vLt_irrefl] at h2
        exact Bool.false_ne_true h2
    · rw [if_neg h2]
      have heq : a.1 = b.1 :=
        vEq_of_not_lt (Bool.not_eq_true _ ▸ h1) (Bool.not_eq_true _ ▸ h2)
      constructor
      · intro hv
        exact Or.inr ⟨heq, (vLt_iff_lex _ _).mp hv⟩
      · rintro (hl | ⟨_, hl⟩)
        · exact absurd ((vLt_iff_lex _ _).mpr hl) h1
        · exact (vLt_iff_lex _ _).mpr hl

theorem eqOp_iff (a b : CKevaData) : a.eqOp b = true ↔ a = b := by
  unfold CKevaData.eqOp
  cases a
  cases b
  simp [Bool.and_eq_true, decide_eq_true_eq, CKevaData.mk.injEq, and_assoc]

/-- Claim C4: `NameComparator` places identifier `a` strictly before `b` iff
the total byte length of `a` is smaller, or the totals tie and `(namespace,
key)` is lexicographically smaller; and the relation is a strict total order
(irreflexive, transitive, connex). -/
theorem nameComparator_spec :
    (∀ a b : Ident, nameLt a b = true ↔ specNameLt a b) ∧
    (∀ a : Ident, nameLt a a = false) ∧
    (∀ a b c : Ident,
      nameLt a b = true → nameLt b c = true → nameLt a c = true) ∧
    (∀ a b : Ident, a ≠ b → nameLt a b = true ∨ nameLt b a = true) := by
  refine ⟨?_, nameLt_irrefl, fun a b c => nameLt_trans, fun a b => nameLt_connex⟩
  intro a b
  rw [nameLt_iff, tupLt_iff_spec]
  exact Iff.rfl

/-- Witness for C4 at concrete identifiers: transitivity applied to two
concrete comparisons. -/
theorem nameComparator_spec_witness :
    nameLt ([], [0]) ([], [0, 0]) = true ∧
      nameLt ([], [0, 0]) ([], [0, 0, 0]) = true ∧
      nameLt ([], [0]) ([], [0, 0, 0]) = true :=
  ⟨by decide, by decide,
    nameComparator_spec.2.2.1 ([], [0]) ([], [0, 0]) ([], [0, 0, 0])
      (by decide) (by decide)⟩

/-- Claim C5: `isDeleted` returns false for every cache state (even with a
non-empty `deleted` set) and every namespace/key argument — the consulting
branch is compiled out in the source. -/
theorem isDeleted_always_false (c : CKevaCache) (nameSpace key : valtype) :
    c.isDeleted nameSpace key = false :=
  rfl

/-- Claim C6: `CNameHistory::push` appends exactly when the stack is empty
or the new entry's height is at least the top's (equal heights allowed);
a strictly smaller height hits the assertion (modelled as `none`) and
nothing is appended. -/
theorem push_spec (d : List CKevaData) (e : CKevaData) :
    (d = [] → CNameHistory.push d e = some (d ++ [e])) ∧
    (∀ top, d.getLast? = some top →
      (top.nHeight ≤ e.nHeight → CNameHistory.push d e = some (d ++ [e])) ∧
      (e.nHeight < top.nHeight → CNameHistory.push d e = none)) := by
  constructor
  · intro h
    subst h
    rfl
  · intro top htop
    unfold CNameHistory.push
    rw [htop]
    constructor
    · intro hle
      show (if top.nHeight ≤ e.nHeight then some (d ++ [e]) else none) =
        some (d ++ [e])
      rw [if_pos hle]
    · intro hlt
      show (if top.nHeight ≤ e.nHeight then some (d ++ [e]) else none) = none
      rw [if_neg (by omega)]

/-- Witness for C6: pushing an equal height succeeds, a smaller height is
the fatal case. -/
theorem push_spec_witness :
    CNameHistory.push [recA] recB = some [recA, recB] ∧
      CNameHistory.push [recA] recC = none :=
  ⟨((push_spec [recA] recB).2 recA rfl).1 (by decide),
    ((push_spec [recA] recC).2 recA rfl).2 (by decide)⟩

/-- Claim C7: on a non-empty stack, `CNameHistory::pop` removes the top
exactly when the argument structurally equals the top in all four fields;
any mismatch hits the assertion (modelled as `none`), leaving the stack
unchanged. -/
theorem pop_spec (d : List CKevaData) (e top : CKevaData)
    (htop : d.getLast? = some top) :
    (CNameHistory.pop d e = some d.dropLast ↔
      (top.value = e.value ∧ top.nHeight = e.nHeight ∧
        top.prevout = e.prevout ∧ top.addr = e.addr)) ∧
    (top ≠ e → CNameHistory.pop d e = none) := by
  have hfields : (top.value = e.value ∧ top.nHeight = e.nHeight ∧
      top.prevout = e.prevout ∧ top.addr = e.addr) ↔ top = e := by
    cases top
    cases e
    simp [CKevaData.mk.injEq, and_assoc]
  unfold CNameHistory.pop
  rw [htop]
  constructor
  · show (if top.eqOp e = true then some d.dropLast else none) =
        some d.dropLast ↔ _
    by_cases h : top.eqOp e = true
    · rw [if_pos h]
      exact iff_of_true rfl (hfields.mpr ((eqOp_iff top e).mp h))
    · rw [if_neg h]
      refine iff_of_false (by simp) ?_
      intro hf
      exact h ((eqOp_iff top e).mpr (hfields.mp hf))
  · intro hne
    show (if top.eqOp e = true then some d.dropLast else none) = none
    have h : ¬ top.eqOp e = true := fun hh => hne ((eqOp_iff top e).mp hh)
    rw [if_neg h]

/-- Witness for C7: popping the exact top succeeds, popping a non-matching
record is the fatal case. -/
theorem pop_spec_witness :
    CNameHistory.pop [recA] recA = some [] ∧
      CNameHistory.pop [recA] recC = none :=
  ⟨(pop_spec [recA] recA recA rfl).1.mpr ⟨rfl, rfl, rfl, rfl⟩,
    (pop_spec [recA] recC recA rfl).2 (by decide)⟩

/-- Claim C10: `CNameHistory::pop` on an empty stack always hits the
assertion (the conjunct `!data.empty()` fails before any comparison); it
never returns normally. -/
theorem pop_empty_fatal (e : CKevaData) : CNameHistory.pop [] e = none :=
  rfl

/-- Claim C9: `isExpired` is true iff the query height minus the stored
height strictly exceeds the expiration depth; at the boundary where the
difference equals the depth it is false. -/
theorem isExpired_spec (d : CKevaData) (h depth : Nat) :
    (d.isExpired h depth = true ↔ h - d.nHeight > depth) ∧
    (h - d.nHeight = depth → d.isExpired h depth = false) := by
  constructor
  · simp [CKevaData.isExpired]
  · intro he
    simp [CKevaData.isExpired, he]

/-- Witness for C9: a record at height 10 queried at height 100 with depth
50 is expired; at height 60 (difference exactly 50) it is not. -/
theorem isExpired_spec_witness :
    recA.isExpired 100 50 = true ∧
      (60 - recA.nHeight = 50 ∧ recA.isExpired 60 50 = false) :=
  ⟨(isExpired_spec recA 100 50).1.mpr (by decide),
    ⟨by decide, (isExpired_spec recA 60 50).2 (by decide)⟩⟩

theorem lookup_insert_self (id : Ident) (d : CKevaData)
    (l : List (Ident × CKevaData)) :
    lookupEntry id (insertEntry id d l) = some d := by
  induction l with
  | nil => simp [insertEntry, lookupEntry]
  | cons p rest ih =>
    simp only [insertEntry]
    by_cases h1 : nameLt id p.1 = true
    · simp [h1, lookupEntry]
    · by_cases h2 : nameLt p.1 id = true
      · have hne : p.1 ≠ id := nameLt_ne h2
        simp [h1, h2, lookupEntry, hne, ih]
      · simp [h1, h2, lookupEntry]

theorem lookup_insert_ne {id j : Ident} (h : j ≠ id) (d : CKevaData)
    (l : List (Ident × CKevaData)) :
    lookupEntry j (insertEntry id d l) = lookupEntry j l := by
  have hij : id ≠ j := fun e => h e.symm
  induction l with
  | nil => simp [insertEntry, lookupEntry, hij]
  | cons p rest ih =>
    simp only [insertEntry]
    by_cases h1 : nameLt id p.1 = true
    · simp [h1, lookupEntry, hij]
    · by_cases h2 : nameLt p.1 id = true
      · simp [h1, h2, lookupEntry, ih]
      · have hp : p.1 = id :=
          (eq_of_not_nameLt (Bool.not_eq_true _ ▸ h2)
            (Bool.not_eq_true _ ▸ h1))
        have hpj : p.1 ≠ j := hp ▸ hij
        simp [h1, h2, lookupEntry, hij, hpj]

theorem lookup_erase_self (id : Ident) (l : List (Ident × CKevaData)) :
    lookupEntry id (eraseEntry id l) = none := by
  induction l with
  | nil => simp [eraseEntry, lookupEntry]
  | cons p rest ih =>
    simp only [eraseEntry, List.filter] at ih ⊢
    by_cases hp : p.1 = id
    · simp [hp, ih]
    · simp [hp, lookupEntry, ih]

theorem lookup_erase_ne {id j : Ident} (h : j ≠ id)
    (l : List (Ident × CKevaData)) :
    lookupEntry j (eraseEntry id l) = lookupEntry j l := by
  induction l with
  | nil => simp [eraseEntry, lookupEntry]
  | cons p rest ih =>
    simp only [eraseEntry, List.filter] at ih ⊢
    by_cases hp : p.1 = id
    · have hpj : p.1 ≠ j := fun e => h (e.symm.trans hp)
      simp [hp, lookupEntry, hpj, ih, Ne.symm h]
    · simp [hp, lookupEntry, ih]

theorem mem_insertDel (j id : Ident) (l : List Ident) :
    j ∈ insertDel id l ↔ j = id ∨ j ∈ l := by
  induction l with
  | nil => simp [insertDel]
  | cons x rest ih =>
    simp only [insertDel]
    by_cases h1 : nameLt id x = true
    · simp [h1, List.mem_cons]
    · by_cases h2 : nameLt x id = true
      · simp [h1, h2, List.mem_cons, ih]
        tauto
      · have hx : x = id :=
          (eq_of_not_nameLt (Bool.not_eq_true _ ▸ h2)
            (Bool.not_eq_true _ ▸ h1))
        subst hx
        simp [h1, h2, List.mem_cons]

theorem mem_eraseDel (j id : Ident) (l : List Ident) :
    j ∈ eraseDel id l ↔ j ∈ l ∧ j ≠ id := by
  simp [eraseDel, List.mem_filter]

theorem memDel_iff (id : Ident) (l : List Ident) :
    memDel id l = true ↔ id ∈ l := by
  simp [memDel]

theorem memDel_false_iff (id : Ident) (l : List Ident) :
    memDel id l = false ↔ id ∉ l := by
  rw [← memDel_iff]
  cases memDel id l <;> simp

theorem memDel_insert_self (id : Ident) (l : List Ident) :
    memDel id (insertDel id l) = true :=
  (memDel_iff _ _).mpr ((mem_insertDel id id l).mpr (Or.inl rfl))

theorem memDel_insert_ne {j id : Ident} (h : j ≠ id) (l : List Ident) :
    memDel j (insertDel id l) = memDel j l := by
  cases hm : memDel j l with
  | true =>
    exact (memDel_iff _ _).mpr
      ((mem_insertDel j id l).mpr (Or.inr ((memDel_iff _ _).mp hm)))
  | false =>
    refine (memDel_false_iff _ _).mpr ?_
    intro hmem
    rcases (mem_insertDel j id l).mp hmem with he | hin
    · exact h he
    · exact (memDel_false_iff _ _).mp hm hin

theorem memDel_erase_self (id : Ident) (l : List Ident) :
    memDel id (eraseDel id l) = false := by
  refine (memDel_false_iff _ _).mpr ?_
  intro hmem
  exact ((mem_eraseDel id id l).mp hmem).2 rfl

theorem memDel_erase_ne {j id : Ident} (h : j ≠ id) (l : List Ident) :
    memDel j (eraseDel id l) = memDel j l := by
  cases hm : memDel j l with
  | true =>
    exact (memDel_iff _ _).mpr
      ((mem_eraseDel j id l).mpr ⟨(memDel_iff _ _).mp hm, h⟩)
  | false =>
    refine (memDel_false_iff _ _).mpr ?_
    intro hmem
    exact (memDel_false_iff _ _).mp hm ((mem_eraseDel j id l).mp hmem).1

theorem obs_set (c : CKevaCache) (ns k : valtype) (d : CKevaData) (j : Ident) :
    obs (c.set ns k d) j =
      if j = (ns, k) then (some d, false) else obs c j := by
  by_cases h : j = (ns, k)
  · subst h
    simp [obs, CKevaCache.set, lookup_insert_self, memDel_erase_self]
  · rw [if_neg h]
    simp only [obs, CKevaCache.set]
    rw [lookup_insert_ne h, memDel_erase_ne h]

theorem obs_remove (c : CKevaCache) (ns k : valtype) (j : Ident) :
    obs (c.remove ns k) j =
      if j = (ns, k) then (none, true) else obs c j := by
  by_cases h : j = (ns, k)
  · subst h
    simp [obs, CKevaCache.remove, lookup_erase_self, memDel_insert_self]
  · rw [if_neg h]
    simp only [obs, CKevaCache.remove]
    rw [lookup_erase_ne h, memDel_insert_ne h]

theorem runOp_preserves (c : CKevaCache) (op : CacheOp)
    (h : ∀ id, lookupEntry id c.entries = none ∨ memDel id c.deleted = false) :
    ∀ id, lookupEntry id (runOp c op).entries = none ∨
      memDel id (runOp c op).deleted = false := by
  intro id
  cases op with
  | opSet ns k d =>
    have hov := obs_set c ns k d id
    by_cases hid : id = (ns, k)
    · right
      show (obs (c.set ns k d) id).2 = false
      rw [hov, if_pos hid]
    · rcases h id with hl | hr
      · left
        show (obs (c.set ns k d) id).1 = none
        rw [hov, if_neg hid]
        exact hl
      · right
        show (obs (c.set ns k d) id).2 = false
        rw [hov, if_neg hid]
        exact hr
  | opRemove ns k =>
    have hov := obs_remove c ns k id
    by_cases hid : id = (ns, k)
    · left
      show (obs (c.remove ns k) id).1 = none
      rw [hov, if_pos hid]
    · rcases h id with hl | hr
      · left
        show (obs (c.remove ns k) id).1 = none
        rw [hov, if_neg hid]
        exact hl
      · right
        show (obs (c.remove ns k) id).2 = false
        rw [hov, if_neg hid]
        exact hr

theorem foldl_preserves (ops : List CacheOp) :
    ∀ c : CKevaCache,
      (∀ id, lookupEntry id c.entries = none ∨ memDel id c.deleted = false) →
      ∀ id, lookupEntry id (ops.foldl runOp c).entries = none ∨
        memDel id (ops.foldl runOp c).deleted = false := by
  induction ops with
  | nil => intro c h; exact h
  | cons op rest ih =>
    intro c h
    exact ih (runOp c op) (runOp_preserves c op h)

/-- Claim C2: starting from the empty cache, after any finite sequence of
`set`/`remove` calls no identifier is simultaneously present in `entries`
and marked in `deleted` (Invariant C). -/
theorem invariantC (ops : List CacheOp) (id : Ident) :
    lookupEntry id (runOps ops).entries = none ∨
      memDel id (runOps ops).deleted = false := by
  have hempty : ∀ j, lookupEntry j emptyCache.entries = none ∨
      memDel j emptyCache.deleted = false := by
    intro j
    left
    rfl
  exact foldl_preserves ops emptyCache hempty id

/-- Witness for C2 at a concrete op sequence (set, remove, set of the same
identifier plus an unrelated remove). -/
theorem invariantC_witness :
    lookupEntry ([0], [1])
        (runOps [CacheOp.opSet [0] [1] recA, CacheOp.opRemove [0] [1],
          CacheOp.opSet [0] [1] recB, CacheOp.opRemove [0] [2]]).entries =
      none ∨
    memDel ([0], [1])
        (runOps [CacheOp.opSet [0] [1] recA, CacheOp.opRemove [0] [1],
          CacheOp.opSet [0] [1] recB, CacheOp.opRemove [0] [2]]).deleted =
      false :=
  invariantC
    [CacheOp.opSet [0] [1] recA, CacheOp.opRemove [0] [1],
      CacheOp.opSet [0] [1] recB, CacheOp.opRemove [0] [2]] ([0], [1])

/-- Claim C8: `remove(id)` then `set(id, r)` leaves `id` mapped to `r` in
`entries`, makes `get(id)` return the record `r`, and leaves `id` out of
the `deleted` set — a set wins over a prior delete staged in the same
layer. -/
theorem remove_then_set (c : CKevaCache) (ns k : valtype) (r : CKevaData) :
    lookupEntry (ns, k) ((c.remove ns k).set ns k r).entries = some r ∧
      ((c.remove ns k).set ns k r).get ns k = some r ∧
      memDel (ns, k) ((c.remove ns k).set ns k r).deleted = false := by
  refine ⟨?_, ?_, ?_⟩
  · exact lookup_insert_self (ns, k) r (c.remove ns k).entries
  · exact lookup_insert_self (ns, k) r (c.remove ns k).entries
  · exact memDel_erase_self (ns, k) (c.remove ns k).deleted

/-- Witness for C8 at a concrete cache, identifier and record. -/
theorem remove_then_set_witness :
    lookupEntry ([0], [1])
        ((emptyCache.remove [0] [1]).set [0] [1] recA).entries = some recA ∧
      ((emptyCache.remove [0] [1]).set [0] [1] recA).get [0] [1] = some recA ∧
      memDel ([0], [1])
        ((emptyCache.remove [0] [1]).set [0] [1] recA).deleted = false :=
  remove_then_set emptyCache [0] [1] recA

theorem lookup_eq_none_iff (j : Ident) (l : List (Ident × CKevaData)) :
    lookupEntry j l = none ↔ ∀ q ∈ l, q.1 ≠ j := by
  induction l with
  | nil => simp [lookupEntry]
  | cons p rest ih =>
    by_cases hp : p.1 = j
    · simp [lookupEntry, hp]
    · simp [lookupEntry, hp, ih]

theorem obs_foldl_remove (dl : List Ident) :
    ∀ (c : CKevaCache) (j : Ident),
      obs (dl.foldl (fun a i => a.remove i.1 i.2) c) j =
        if j ∈ dl then (none, true) else obs c j := by
  induction dl with
  | nil => intro c j; simp
  | cons i rest ih =>
    intro c j
    simp only [List.foldl_cons]
    rw [ih]
    by_cases hj : j ∈ rest
    · simp [hj]
    · rw [if_neg hj, obs_remove]
      rw [Prod.mk.eta]
      by_cases hji : j = i
      · simp [hji]
      · simp [hji, hj]

theorem obs_foldl_set (el : List (Ident × CKevaData)) :
    ∀ (c : CKevaCache) (j : Ident), keysNodup el →
      obs (el.foldl (fun a p => a.set p.1.1 p.1.2 p.2) c) j =
        (match lookupEntry j el with
          | some r => (some r, false)
          | none => obs c j) := by
  induction el with
  | nil => intro c j _; simp [lookupEntry]
  | cons p rest ih =>
    intro c j hnd
    have hnd2 : keysNodup rest := (List.pairwise_cons.mp hnd).2
    have hkeys : ∀ q ∈ rest, p.1 ≠ q.1 := (List.pairwise_cons.mp hnd).1
    simp only [List.foldl_cons]
    rw [ih _ _ hnd2]
    by_cases hj : p.1 = j
    · have hrest : lookupEntry j rest = none := by
        rw [lookup_eq_none_iff]
        intro q hq he
        exact hkeys q hq (hj.trans he.symm)
      rw [hrest]
      have hobs := obs_set c p.1.1 p.1.2 p.2 j
      rw [hobs, if_pos hj.symm]
      simp [lookupEntry, hj]
    · cases hrest : lookupEntry j rest with
      | some r => simp [lookupEntry, hj, hrest]
      | none =>
        have hobs := obs_set c p.1.1 p.1.2 p.2 j
        rw [hobs, if_neg (fun e => hj e.symm)]
        simp [lookupEntry, hj, hrest]

theorem obs_apply (c other : CKevaCache) (j : Ident)
    (h : keysNodup other.entries) :
    obs (c.apply other) j =
      (match lookupEntry j other.entries with
        | some r => (some r, false)
        | none => if j ∈ other.deleted then (none, true) else obs c j) := by
  unfold CKevaCache.apply
  rw [obs_foldl_set _ _ _ h, obs_foldl_remove]

/-- Claim C3: applying layer B and then layer C onto base cache A yields,
at every identifier, the state dictated by the last layer touching it
(C first, then B), and A's original state where neither touches it —
exactly the effect of one merged layer B-then-C.  The donors B and C are
values in this functional model, so they are left unmodified by
construction.  The key-uniqueness hypotheses restate the `std::map`
invariant of the entries containers. -/
theorem apply_compose (A B Cc : CKevaCache) (hB : keysNodup B.entries)
    (hC : keysNodup Cc.entries) (j : Ident) :
    obs ((A.apply B).apply Cc) j =
      if touches Cc j then layerObs Cc j
      else if touches B j then layerObs B j
      else obs A j := by
  rw [obs_apply _ _ _ hC]
  cases hc : lookupEntry j Cc.entries with
  | some r =>
    simp [touches, layerObs, hc]
  | none =>
    by_cases hd : j ∈ Cc.deleted
    · have ht : touches Cc j = true := by
        simp [touches, hc, memDel_iff, hd]
      simp only [if_pos hd, ht, if_true]
      simp [layerObs, hc]
    · have ht : touches Cc j = false := by
        simp [touches, hc, memDel_false_iff, hd]
      rw [if_neg hd, ht]
      simp only [Bool.false_eq_true, if_false]
      rw [obs_apply _ _ _ hB]
      cases hb : lookupEntry j B.entries with
      | some r =>
        simp [touches, layerObs, hb]
      | none =>
        by_cases hdb : j ∈ B.deleted
        · have htb : touches B j = true := by
            simp [touches, hb, memDel_iff, hdb]
          simp only [if_pos hdb, htb, if_true]
          simp [layerObs, hb]
        · have htb : touches B j = false := by
            simp [touches, hb, memDel_false_iff, hdb]
          rw [if_neg hdb, htb]
          simp

/-- Witness for C3 at the concrete layers `exA`, `exB`, `exC` and the
identifier touched by both overlay layers. -/
theorem apply_compose_witness :
    keysNodup exB.entries ∧ keysNodup exC.entries ∧
      obs ((exA.apply exB).apply exC) idA =
        (if touches exC idA then layerObs exC idA
          else if touches exB idA then layerObs exB idA
          else obs exA idA) :=
  ⟨by simp [keysNodup, exB], by simp [keysNodup, exC],
    apply_compose exA exB exC (by simp [keysNodup, exB])
      (by simp [keysNodup, exC]) idA⟩

theorem key_lt_of_pairwise {b : Ident × CKevaData}
    {bs : List (Ident × CKevaData)} (hp : List.Pairwise ltKey (b :: bs))
    {x : Ident} (hx : nameLt x b.1 = true) {q : Ident × CKevaData}
    (hq : q ∈ b :: bs) : nameLt x q.1 = true := by
  rcases List.mem_cons.mp hq with he | hm
  · rw [he]
    exact hx
  · exact nameLt_trans hx ((List.pairwise_cons.mp hp).1 q hm)

theorem lookup_none_of_lt {x : Ident} {e : Ident × CKevaData}
    {es : List (Ident × CKevaData)} (hp : List.Pairwise ltKey (e :: es))
    (hx : nameLt x e.1 = true) : lookupEntry x (e :: es) = none := by
  rw [lookup_eq_none_iff]
  intro q hq
  exact fun he => nameLt_ne (key_lt_of_pairwise hp hx hq) he.symm

theorem lookup_cons_ne {id : Ident} {e : Ident × CKevaData} (h : e.1 ≠ id)
    (es : List (Ident × CKevaData)) :
    lookupEntry id (e :: es) = lookupEntry id es := by
  simp [lookupEntry, h]

theorem lookup_cons_none {id : Ident} {e : Ident × CKevaData}
    {es : List (Ident × CKevaData)} (h : lookupEntry id (e :: es) = none) :
    e.1 ≠ id ∧ lookupEntry id es = none := by
  rw [lookup_eq_none_iff] at h
  exact ⟨h e (List.mem_cons_self e es),
    (lookup_eq_none_iff id es).mpr fun q hq => h q (List.mem_cons_of_mem e hq)⟩

theorem mem_mergeF_sub (dels : List Ident) :
    ∀ (f : Nat) (bs es : List (Ident × CKevaData)) (p : Ident × CKevaData),
      p ∈ mergeNamesF dels f bs es → p ∈ bs ∨ p ∈ es := by
  intro f
  induction f with
  | zero =>
    intro bs es p hp
    simp [mergeNamesF] at hp
  | succ f ih =>
    intro bs es p hp
    cases bs with
    | nil =>
      simp only [mergeNamesF] at hp
      exact Or.inr hp
    | cons b bs2 =>
      cases es with
      | nil =>
        simp only [mergeNamesF] at hp
        by_cases hdel : memDel b.1 dels = true
        · rw [if_pos hdel] at hp
          rcases ih bs2 [] p hp with hl | hr
          · exact Or.inl (List.mem_cons_of_mem b hl)
          · simp at hr
        · rw [if_neg hdel] at hp
          rcases List.mem_cons.mp hp with he | hp2
          · exact Or.inl (he ▸ List.mem_cons_self b bs2)
          · rcases ih bs2 [] p hp2 with hl | hr
            · exact Or.inl (List.mem_cons_of_mem b hl)
            · simp at hr
      | cons e es2 =>
        simp only [mergeNamesF] at hp
        by_cases h1 : nameLt e.1 b.1 = true
        · rw [if_pos h1] at hp
          rcases List.mem_cons.mp hp with he | hp2
          · exact Or.inr (he ▸ List.mem_cons_self e es2)
          · rcases ih (b :: bs2) es2 p hp2 with hl | hr
            · exact Or.inl hl
            · exact Or.inr (List.mem_cons_of_mem e hr)
        · rw [if_neg h1] at hp
          by_cases h2 : nameLt b.1 e.1 = true
          · rw [if_pos h2] at hp
            by_cases hdel : memDel b.1 dels = true
            · rw [if_pos hdel] at hp
              rcases ih bs2 (e :: es2) p hp with hl | hr
              · exact Or.inl (List.mem_cons_of_mem b hl)
              · exact Or.inr hr
            · rw [if_neg hdel] at hp
              rcases List.mem_cons.mp hp with he | hp2
              · exact Or.inl (he ▸ List.mem_cons_self b bs2)
              · rcases ih bs2 (e :: es2) p hp2 with hl | hr
                · exact Or.inl (List.mem_cons_of_mem b hl)
                · exact Or.inr hr
          · rw [if_neg h2] at hp
            rcases List.mem_cons.mp hp with he | hp2
            · exact Or.inr (he ▸ List.mem_cons_self e es2)
            · rcases ih bs2 es2 p hp2 with hl | hr
              · exact Or.inl (List.mem_cons_of_mem b hl)
              · exact Or.inr (List.mem_cons_of_mem e hr)

theorem pairwise_mergeF (dels : List Ident) :
    ∀ (f : Nat) (bs es : List (Ident × CKevaData)),
      bs.length + es.length ≤ f →
      List.Pairwise ltKey bs → List.Pairwise ltKey es →
      List.Pairwise ltKey (mergeNamesF dels f bs es) := by
  intro f
  induction f with
  | zero =>
    intro bs es _ _ _
    simp only [mergeNamesF]
    exact List.Pairwise.nil
  | succ f ih =>
    intro bs es hlen hpb hpe
    cases bs with
    | nil =>
      simpa only [mergeNamesF] using hpe
    | cons b bs2 =>
      have hpb2 := (List.pairwise_cons.mp hpb).2
      have hpbh := (List.pairwise_cons.mp hpb).1
      cases es with
      | nil =>
        have hlen2 : bs2.length + ([] : List (Ident × CKevaData)).length ≤ f := by
          simp only [List.length_cons, List.length_nil] at hlen ⊢
          omega
        simp only [mergeNamesF]
        by_cases hdel : memDel b.1 dels = true
        · rw [if_pos hdel]
          exact ih bs2 [] hlen2 hpb2 List.Pairwise.nil
        · rw [if_neg hdel]
          refine List.pairwise_cons.mpr ⟨?_, ih bs2 [] hlen2 hpb2 List.Pairwise.nil⟩
          intro y hy
          rcases mem_mergeF_sub dels f bs2 [] y hy with hl | hr
          · exact hpbh y hl
          · simp at hr
      | cons e es2 =>
        have hpe2 := (List.pairwise_cons.mp hpe).2
        have hpeh := (List.pairwise_cons.mp hpe).1
        simp only [mergeNamesF]
        by_cases h1 : nameLt e.1 b.1 = true
        · rw [if_pos h1]
          have hlen2 : (b :: bs2).length + es2.length ≤ f := by
            simp only [List.length_cons] at hlen ⊢
            omega
          refine List.pairwise_cons.mpr ⟨?_, ih (b :: bs2) es2 hlen2 hpb hpe2⟩
          intro y hy
          rcases mem_mergeF_sub dels f (b :: bs2) es2 y hy with hl | hr
          · exact key_lt_of_pairwise hpb h1 hl
          · exact hpeh y hr
        · rw [if_neg h1]
          by_cases h2 : nameLt b.1 e.1 = true
          · rw [if_pos h2]
            have hlen2 : bs2.length + (e :: es2).length ≤ f := by
              simp only [List.length_cons] at hlen ⊢
              omega
            by_cases hdel : memDel b.1 dels = true
            · rw [if_pos hdel]
              exact ih bs2 (e :: es2) hlen2 hpb2 hpe
            · rw [if_neg hdel]
              refine List.pairwise_cons.mpr ⟨?_, ih bs2 (e :: es2) hlen2 hpb2 hpe⟩
              intro y hy
              rcases mem_mergeF_sub dels f bs2 (e :: es2) y hy with hl | hr
              · exact hpbh y hl
              · exact key_lt_of_pairwise hpe h2 hr
          · rw [if_neg h2]
            have heq : b.1 = e.1 :=
              eq_of_not_nameLt (Bool.not_eq_true _ ▸ h2) (Bool.not_eq_true _ ▸ h1)
            have hlen2 : bs2.length + es2.length ≤ f := by
              simp only [List.length_cons] at hlen ⊢
              omega
            refine List.pairwise_cons.mpr ⟨?_, ih bs2 es2 hlen2 hpb2 hpe2⟩
            intro y hy
            rcases mem_mergeF_sub dels f bs2 es2 y hy with hl | hr
            · show nameLt e.1 y.1 = true
              rw [← heq]
              exact hpbh y hl
            · exact hpeh y hr

theorem mem_mergeF (dels : List Ident) :
    ∀ (f : Nat) (bs es : List (Ident × CKevaData)),
      bs.length + es.length ≤ f →
      List.Pairwise ltKey bs → List.Pairwise ltKey es →
      ∀ (id : Ident) (r : CKevaData),
        ((id, r) ∈ mergeNamesF dels f bs es ↔
          ((id, r) ∈ es ∨
            ((id, r) ∈ bs ∧ lookupEntry id es = none ∧
              memDel id dels = false))) := by
  intro f
  induction f with
  | zero =>
    intro bs es hlen _ _ id r
    have hbs : bs = [] := List.length_eq_zero.mp (by omega)
    have hes : es = [] := List.length_eq_zero.mp (by omega)
    subst hbs
    subst hes
    simp [mergeNamesF]
  | succ f ih =>
    intro bs es hlen hpb hpe id r
    cases bs with
    | nil =>
      simp [mergeNamesF]
    | cons b bs2 =>
      have hpb2 := (List.pairwise_cons.mp hpb).2
      have hpbh := (List.pairwise_cons.mp hpb).1
      cases es with
      | nil =>
        have hlen2 : bs2.length + ([] : List (Ident × CKevaData)).length ≤ f := by
          simp only [List.length_cons, List.length_nil] at hlen ⊢
          omega
        simp only [mergeNamesF]
        by_cases hdel : memDel b.1 dels = true
        · rw [if_pos hdel]
          rw [ih bs2 [] hlen2 hpb2 List.Pairwise.nil id r]
          constructor
          · rintro (hme | ⟨hm, hl, hd⟩)
            · exact Or.inl hme
            · exact Or.inr ⟨List.mem_cons_of_mem b hm, hl, hd⟩
          · rintro (hme | ⟨hm, hl, hd⟩)
            · exact Or.inl hme
            · rcases List.mem_cons.mp hm with he | hm2
              · exfalso
                have hid : id = b.1 := by rw [← he]
                rw [hid, hdel] at hd
                simp at hd
              · exact Or.inr ⟨hm2, hl, hd⟩
        · rw [if_neg hdel]
          rw [List.mem_cons, ih bs2 [] hlen2 hpb2 List.Pairwise.nil id r]
          constructor
          · rintro (he | (hme | ⟨hm, hl, hd⟩))
            · have hid : id = b.1 := by rw [← he]
              refine Or.inr ⟨by rw [he]; exact List.mem_cons_self b bs2, rfl, ?_⟩
              rw [hid]
              exact Bool.not_eq_true _ ▸ hdel
            · exact Or.inl hme
            · exact Or.inr ⟨List.mem_cons_of_mem b hm, hl, hd⟩
          · rintro (hme | ⟨hm, hl, hd⟩)
            · exact Or.inr (Or.inl hme)
            · rcases List.mem_cons.mp hm with he | hm2
              · exact Or.inl he
              · exact Or.inr (Or.inr ⟨hm2, hl, hd⟩)
      | cons e es2 =>
        have hpe2 := (List.pairwise_cons.mp hpe).2
        have hpeh := (List.pairwise_cons.mp hpe).1
        simp only [mergeNamesF]
        by_cases h1 : nameLt e.1 b.1 = true
        · rw [if_pos h1]
          have hlen2 : (b :: bs2).length + es2.length ≤ f := by
            simp only [List.length_cons] at hlen ⊢
            omega
          rw [List.mem_cons, ih (b :: bs2) es2 hlen2 hpb hpe2 id r]
          constructor
          · rintro (he | (hml | ⟨hmb, hlk, hdd⟩))
            · exact Or.inl (he ▸ List.mem_cons_self e es2)
            · exact Or.inl (List.mem_cons_of_mem e hml)
            · have hne : e.1 ≠ id :=
                nameLt_ne (key_lt_of_pairwise hpb h1 hmb)
              exact Or.inr ⟨hmb, (lookup_cons_ne hne es2).trans hlk, hdd⟩
          · rintro (hme | ⟨hmb, hlk, hdd⟩)
            · rcases List.mem_cons.mp hme with he | hm2
              · exact Or.inl he
              · exact Or.inr (Or.inl hm2)
            · exact Or.inr (Or.inr ⟨hmb, (lookup_cons_none hlk).2, hdd⟩)
        · rw [if_neg h1]
          by_cases h2 : nameLt b.1 e.1 = true
          · rw [if_pos h2]
            have hlen2 : bs2.length + (e :: es2).length ≤ f := by
              simp only [List.length_cons] at hlen ⊢
              omega
            by_cases hdel : memDel b.1 dels = true
            · rw [if_pos hdel]
              rw [ih bs2 (e :: es2) hlen2 hpb2 hpe id r]
              constructor
              · rintro (hme | ⟨hmb, hlk, hdd⟩)
                · exact Or.inl hme
                · exact Or.inr ⟨List.mem_cons_of_mem b hmb, hlk, hdd⟩
              · rintro (hme | ⟨hmb, hlk, hdd⟩)
                · exact Or.inl hme
                · rcases List.mem_cons.mp hmb with he | hm2
                  · exfalso
                    have hid : id = b.1 := by
                      rw [← he]
                    rw [hid, hdel] at hdd
                    exact Bool.true_eq_false ▸ hdd
                  · exact Or.inr ⟨hm2, hlk, hdd⟩
            · rw [if_neg hdel]
              rw [List.mem_cons, ih bs2 (e :: es2) hlen2 hpb2 hpe id r]
              constructor
              · rintro (he | (hme | ⟨hmb, hlk, hdd⟩))
                · have hid : id = b.1 := by
                    rw [← he]
                  refine Or.inr ⟨he ▸ List.mem_cons_self b bs2, ?_, ?_⟩
                  · rw [hid]
                    exact lookup_none_of_lt hpe h2
                  · rw [hid]
                    exact Bool.not_eq_true _ ▸ hdel
                · exact Or.inl hme
                · exact Or.inr ⟨List.mem_cons_of_mem b hmb, hlk, hdd⟩
              · rintro (hme | ⟨hmb, hlk, hdd⟩)
                · exact Or.inr (Or.inl hme)
                · rcases List.mem_cons.mp hmb with he | hm2
                  · exact Or.inl he
                  · exact Or.inr (Or.inr ⟨hm2, hlk, hdd⟩)
          · rw [if_neg h2]
            have heq : b.1 = e.1 :=
              eq_of_not_nameLt (Bool.not_eq_true _ ▸ h2) (Bool.not_eq_true _ ▸ h1)
            have hlen2 : bs2.length + es2.length ≤ f := by
              simp only [List.length_cons] at hlen ⊢
              omega
            rw [List.mem_cons, ih bs2 es2 hlen2 hpb2 hpe2 id r]
            constructor
            · rintro (he | (hme | ⟨hmb, hlk, hdd⟩))
              · exact Or.inl (by rw [he]; exact List.mem_cons_self e es2)
              · exact Or.inl (List.mem_cons_of_mem e hme)
              · have hlt : nameLt e.1 id = true := by
                  rw [← heq]
                  exact hpbh (id, r) hmb
                refine Or.inr ⟨List.mem_cons_of_mem b hmb, ?_, hdd⟩
                rw [lookup_cons_ne (nameLt_ne hlt) es2]
                exact hlk
            · rintro (hme | ⟨hmb, hlk, hdd⟩)
              · rcases List.mem_cons.mp hme with he | hm2
                · exact Or.inl he
                · exact Or.inr (Or.inl hm2)
              · obtain ⟨hne, hlk2⟩ := lookup_cons_none hlk
                rcases List.mem_cons.mp hmb with he | hm2
                · exfalso
                  have hid : id = b.1 := by rw [← he]
                  exact hne (heq.symm.trans hid.symm)
                · exact Or.inr (Or.inr ⟨hm2, hlk2, hdd⟩)

/-- Claim C1: for a base stream ascending under the ordering relation (and
the cache entries ascending, as `std::map` guarantees), the drained merge
iterator is strictly ascending (hence yields each identifier at most once),
and a pair is yielded iff it is a cache entry (the cache record overriding
any equal base identifier), or a base pair whose identifier is neither
overridden by a cache entry nor contained in `deleted`. -/
theorem iterateNames_spec (c : CKevaCache) (base : List (Ident × CKevaData))
    (hbase : List.Pairwise ltKey base) (hent : List.Pairwise ltKey c.entries) :
    List.Pairwise ltKey (c.iterateNames base) ∧
    (∀ (id : Ident) (r : CKevaData),
      ((id, r) ∈ c.iterateNames base ↔
        ((id, r) ∈ c.entries ∨
          ((id, r) ∈ base ∧ lookupEntry id c.entries = none ∧
            memDel id c.deleted = false)))) := by
  constructor
  · exact pairwise_mergeF c.deleted _ base c.entries (le_refl _) hbase hent
  · intro id r
    exact mem_mergeF c.deleted _ base c.entries (le_refl _) hbase hent id r

/-- Witness for C1: the spec's concrete scenario — base `a, b, c` with
records `ra, rb, rc`, cache entries `{b: rb2, x: rx}`, deleted `{a}` —
drains to exactly `b: rb2, x: rx, c: rc`, and the general theorem applies
to it. -/
theorem iterateNames_spec_witness :
    List.Pairwise ltKey exBase ∧ List.Pairwise ltKey exCache.entries ∧
      exCache.iterateNames exBase = [(idB, recB2), (idX, recX), (idC, recCC)] ∧
      (List.Pairwise ltKey (exCache.iterateNames exBase) ∧
        (∀ (id : Ident) (r : CKevaData),
          ((id, r) ∈ exCache.iterateNames exBase ↔
            ((id, r) ∈ exCache.entries ∨
              ((id, r) ∈ exBase ∧ lookupEntry id exCache.entries = none ∧
                memDel id exCache.deleted = false))))) :=
  ⟨by decide, by decide, by decide,
    iterateNames_spec exCache exBase (by decide) (by decide)⟩

end Keva
